import Mathlib

/-!
Verification of the LL(1) parser-generator core of CFront
(`src/python/syntax.py`) against its natural-language specification.

Symbols are identified by their names (the source hashes and compares
symbols by name only); a production is the pair of its LHS name and the
list of RHS names (the source hashes and compares productions by these
components).  The mutable cross-reference sets `lhs_set` / `rhs_set`
maintained by `Production.__init__` and `Production.clear` are modelled
as derived views over the owning generator's production set, which the
source keeps in lockstep with them.
-/

/-- A production rule: `Production.__init__` fixes `lhs` and `rhs_list`
once and for all (attribute interception forbids later mutation). -/
structure Production where
  lhs : String
  rhs : List String
deriving DecidableEq, Repr

/-- The state of a `ParserGenerator` object: terminal and non-terminal
name sets, the live production set, the per-non-terminal
`new_name_index` counters (initially 1), and the root symbol. -/
structure PG where
  terminalSet : List String
  nonTerminalSet : List String
  productionSet : List Production
  newNameIndex : String → Nat
  rootSymbol : Option String

def emptyPG : PG := ⟨[], [], [], fun _ => 1, none⟩

/-- Add an element to a list-modelled set (no-op when present). -/
def insertU (l : List String) (x : String) : List String :=
  if x ∈ l then l else l ++ [x]

/-- `A.lhs_set`: the productions whose LHS is `A`. -/
def lhsProds (pg : PG) (A : String) : List Production :=
  pg.productionSet.filter (fun p => p.lhs = A)

/-- `A.rhs_set`: the productions in whose RHS the non-terminal `A`
occurs. -/
def rhsProds (pg : PG) (A : String) : List Production :=
  pg.productionSet.filter (fun p => A ∈ p.rhs)

/-- A name is in use by the grammar: it names a terminal, a
non-terminal, or occurs in some live production. -/
def UsesName (pg : PG) (x : String) : Prop :=
  x ∈ pg.nonTerminalSet ∨ x ∈ pg.terminalSet ∨
    ∃ p ∈ pg.productionSet, x = p.lhs ∨ x ∈ p.rhs

instance (pg : PG) (x : String) : Decidable (UsesName pg x) :=
  inferInstanceAs (Decidable (x ∈ pg.nonTerminalSet ∨ x ∈ pg.terminalSet ∨
    ∃ p ∈ pg.productionSet, x = p.lhs ∨ x ∈ p.rhs))

/-- The name `get_new_symbol` would synthesise for `A`:
`A.name + "-" + new_name_index`. -/
def newNameOf (pg : PG) (A : String) : String :=
  A ++ "-" ++ toString (pg.newNameIndex A)

/-- `exists_direct_left_recursion`: some production of `A` starts
with `A` itself. -/
def ExistsDirectLeftRecursion (pg : PG) (A : String) : Prop :=
  ∃ p ∈ lhsProds pg A, p.rhs.head? = some A

instance (pg : PG) (A : String) :
    Decidable (ExistsDirectLeftRecursion pg A) :=
  inferInstanceAs (Decidable (∃ p ∈ lhsProds pg A, p.rhs.head? = some A))

/-- `Production.__init__`: inserting an already-present production
raises `KeyError`; otherwise the production joins the generator's
production set (the cross-reference sets being derived views). -/
def addProduction (pg : PG) (p : Production) : Except String PG :=
  if p ∈ pg.productionSet then
    .error "Production already defined"
  else
    .ok { pg with productionSet := pg.productionSet ++ [p] }

/-- `NonTerminal.eliminate_left_recursion`.  When `A` has a directly
left-recursive production: back up and retire all `A`-productions,
split them into `alpha` (left-recursive) and `beta` (the rest), create
the fresh symbol, add EMPTY to the terminal set, and install the
rewritten productions (betas, then alphas, then `A' → EMPTY`), each
install going through the duplicate check of `Production.__init__`. -/
def eliminateLeftRecursion (pg : PG) (A : String) : Except String PG :=
  if ExistsDirectLeftRecursion pg A then
    let pSet := lhsProds pg A
    let alphaSet := pSet.filter (fun p => p.rhs.head? = some A)
    let betaSet := pSet.filter (fun p => ¬ p.rhs.head? = some A)
    let newSym := newNameOf pg A
    let pg1 : PG :=
      { pg with
        productionSet := pg.productionSet.filter (fun p => ¬ p.lhs = A),
        nonTerminalSet := insertU pg.nonTerminalSet newSym,
        terminalSet := insertU pg.terminalSet "T_",
        newNameIndex :=
          Function.update pg.newNameIndex A (pg.newNameIndex A + 1) }
    let installs :=
      betaSet.map (fun b =>
        Production.mk A
          (if b.rhs = ["T_"] then [newSym] else b.rhs ++ [newSym]))
      ++ alphaSet.map (fun a => Production.mk newSym (a.rhs.tail ++ [newSym]))
      ++ [Production.mk newSym ["T_"]]
    installs.foldlM addProduction pg1
  else
    .ok pg

/-- `ParserGenerator.process_left_recursion`: run the rewrite over a
snapshot of the non-terminal set. -/
def processLeftRecursion (pg : PG) : Except String PG :=
  pg.nonTerminalSet.foldlM eliminateLeftRecursion pg

/-- Union of two list-modelled sets. -/
def unionL (l1 l2 : List String) : List String :=
  l2.foldl insertU l1

/-- Non-terminal heads of `A`-productions: the one-step contributions
to `build_first_rhs_set` (a terminal head contributes nothing and
stops the walk along that production). -/
def headsOf (pg : PG) (A : String) : List String :=
  (lhsProds pg A).foldl
    (fun acc p =>
      match p.rhs.head? with
      | some s => if s ∈ pg.nonTerminalSet then insertU acc s else acc
      | none => acc) []

/-- One closure step of the first-RHS relation. -/
def firstRhsStep (pg : PG) (s : List String) : List String :=
  s.foldl (fun acc A => unionL acc (headsOf pg A)) s

/-- `first_rhs_set(A)`: the least solution of the defining equation
`first_rhs_set(A) = ⋃ {rhs[0]} ∪ first_rhs_set(rhs[0])` over the
non-terminal heads of `A`-productions (the source computes it by
memoised recursion; the closure below is the least fixpoint of that
equation, reached after at most `|non_terminals|` steps). -/
def firstRhsSet (pg : PG) (A : String) : List String :=
  Nat.iterate (firstRhsStep pg) pg.nonTerminalSet.length (headsOf pg A)

/-- The FIRST/FOLLOW annotation state: each non-terminal's `first_set`
and `follow_set`, each production's `first_set`, and the round-local
`result_available` memoisation flags. -/
structure FFState where
  ntFirst : String → List String
  prodFirst : Production → List String
  follow : String → List String
  resultAvailable : List String

def initFF : FFState :=
  ⟨fun _ => [], fun _ => [], fun _ => [], []⟩

/-- Add a terminal to both `A.first_set` and `p.first_set`
(`compute_first`, terminal case and for-else case). -/
def addFirstSym (A : String) (p : Production) (s : String)
    (st : FFState) : FFState :=
  { st with
    ntFirst := Function.update st.ntFirst A (insertU (st.ntFirst A) s),
    prodFirst := Function.update st.prodFirst p (insertU (st.prodFirst p) s) }

/-- Union a symbol's FIRST set into both `A.first_set` and
`p.first_set` (`compute_first`, non-terminal case). -/
def unionFirstSym (A : String) (p : Production) (s : List String)
    (st : FFState) : FFState :=
  { st with
    ntFirst := Function.update st.ntFirst A (unionL (st.ntFirst A) s),
    prodFirst := Function.update st.prodFirst p (unionL (st.prodFirst p) s) }

/-- The inner loop of `compute_first` over one production's RHS:
terminals are added and stop the production; a non-terminal is
recursed into (through `cf`), its whole FIRST set (EMPTY included) is
unioned in, and the loop continues only while EMPTY is derivable; the
for-else branch adds EMPTY when the RHS is exhausted. -/
def firstProdLoop (pg : PG) (cf : FFState → String → FFState)
    (A : String) (p : Production) : List String → FFState → FFState
  | [], st => addFirstSym A p "T_" st
  | s :: rest, st =>
    if s ∈ pg.terminalSet then addFirstSym A p s st
    else
      let st1 := cf st s
      let st2 := unionFirstSym A p (st1.ntFirst s) st1
      if "T_" ∈ st1.ntFirst s then firstProdLoop pg cf A p rest st2
      else st2

/-- `NonTerminal.compute_first`, fuelled: memoisation guard, recursion
path guard, then the production loop over `A.lhs_set`. -/
def computeFirst : Nat → PG → List String → String → FFState → FFState
  | 0, _, _, _, st => st
  | fuel + 1, pg, path, A, st =>
    if A ∈ st.resultAvailable then st
    else
      let st1 := { st with resultAvailable := insertU st.resultAvailable A }
      if A ∈ path then st1
      else
        (lhsProds pg A).foldl
          (fun acc p =>
            firstProdLoop pg
              (fun s2 B => computeFirst fuel pg (path ++ [A]) B s2)
              A p p.rhs acc)
          st1

/-- Loop of `Production.compute_substring_first`: fold the FIRST sets
of leading symbols, discarding EMPTY, stopping at the first terminal
or non-nullable non-terminal, and adding EMPTY when the whole suffix
is nullable. -/
def substringFirstAux (pg : PG) (st : FFState) :
    List String → List String → List String
  | [], ret => insertU ret "T_"
  | s :: rest, ret =>
    if s ∈ pg.terminalSet then insertU ret s
    else
      let ret1 := (unionL ret (st.ntFirst s)).erase "T_"
      if "T_" ∈ st.ntFirst s then substringFirstAux pg st rest ret1
      else ret1

/-- `Production.compute_substring_first(index)`. -/
def computeSubstringFirst (pg : PG) (st : FFState) (p : Production)
    (index : Nat) : List String :=
  substringFirstAux pg st (p.rhs.drop index) []

/-- Index scan of `Production.get_symbol_index`. -/
def getSymbolIndexAux (s : String) : List String → Nat → List Nat
  | [], _ => []
  | x :: rest, i =>
    if x = s then i :: getSymbolIndexAux s rest (i + 1)
    else getSymbolIndexAux s rest (i + 1)

/-- `Production.get_symbol_index(symbol)`: the ordered list of indices
at which `symbol` occurs in the RHS. -/
def Production.getSymbolIndex (p : Production) (s : String) : List Nat :=
  getSymbolIndexAux s p.rhs 0

/-- Union a set of terminals into `A.follow_set`. -/
def unionFollow (A : String) (s : List String) (st : FFState) : FFState :=
  { st with follow := Function.update st.follow A (unionL (st.follow A) s) }

/-- The body of `compute_follow` for one production, at one occurrence
position of `A`: last position unions `FOLLOW(lhs)` (after recursing
through `cf`); otherwise the substring FIRST after the occurrence is
taken, `FOLLOW(lhs)` is added when it contains EMPTY, and the
substring FIRST without EMPTY is unioned in. -/
def followProdAt (pg : PG) (cf : FFState → String → FFState)
    (A : String) (p : Production) (index : Nat) (st : FFState) : FFState :=
  if index = p.rhs.length - 1 then
    let st1 := cf st p.lhs
    unionFollow A (st1.follow p.lhs) st1
  else
    let sub := computeSubstringFirst pg st p (index + 1)
    if "T_" ∈ sub then
      let st1 := cf st p.lhs
      let st2 := unionFollow A (st1.follow p.lhs) st1
      unionFollow A (sub.erase "T_") st2
    else
      unionFollow A sub st

/-- `compute_follow`'s per-production step with the source's
assertion stripped (the semantics under `python -O`): the source
takes `index_list = p.get_symbol_index(self)`, asserts it has exactly
one element — `followProdA` below models that error path faithfully —
and processes `index_list[0]`.  This assertion-free version is used
for the EMPTY-invariant of the FOLLOW sets; `computeFollowA_agrees`
proves it coincides with the faithful version whenever the assertion
holds everywhere. -/
def followProd (pg : PG) (cf : FFState → String → FFState)
    (A : String) (p : Production) (st : FFState) : FFState :=
  match (p.getSymbolIndex A).head? with
  | none => st
  | some index => followProdAt pg cf A p index st

/-- `NonTerminal.compute_follow`, fuelled, with the per-production
occurrence assertion stripped (see `followProd`); `computeFollowA` is
the faithful fallible version: memoisation guard, path guard, then
the loop over `A.rhs_set`. -/
def computeFollow : Nat → PG → List String → String → FFState → FFState
  | 0, _, _, _, st => st
  | fuel + 1, pg, path, A, st =>
    if A ∈ st.resultAvailable then st
    else
      let st1 := { st with resultAvailable := insertU st.resultAvailable A }
      if A ∈ path then st1
      else
        (rhsProds pg A).foldl
          (fun acc p =>
            followProd pg
              (fun s2 B => computeFollow fuel pg (path ++ [A]) B s2)
              A p acc)
          st1

/-- Recursion fuel ample for one round: the path/memoisation guards
bound the recursion depth by the number of non-terminals. -/
def ffFuel (pg : PG) : Nat := pg.nonTerminalSet.length + 1

/-- One outer round of the FIRST fixpoint: clear every
`result_available` flag, then run `compute_first` on every
non-terminal with a fresh empty path. -/
def firstRound (pg : PG) (st : FFState) : FFState :=
  pg.nonTerminalSet.foldl
    (fun acc A => computeFirst (ffFuel pg) pg [] A acc)
    { st with resultAvailable := [] }

/-- The vector of FIRST-set sizes over the fixed non-terminal list. -/
def firstCounts (pg : PG) (st : FFState) : List Nat :=
  pg.nonTerminalSet.map (fun A => (st.ntFirst A).length)

/-- The outer FIRST fixpoint loop: rounds repeat until the size vector
is unchanged across a round. -/
def firstFixpoint : Nat → PG → FFState → FFState
  | 0, _, st => st
  | n + 1, pg, st =>
    let st1 := firstRound pg st
    if firstCounts pg st1 = firstCounts pg st then st1
    else firstFixpoint n pg st1

/-- Seeding of the FOLLOW computation: `root.follow_set.add(END)`. -/
def seedFollow (pg : PG) (st : FFState) : FFState :=
  match pg.rootSymbol with
  | some r => { st with follow := Function.update st.follow r (insertU (st.follow r) "T_EOF") }
  | none => st

/-- One outer round of the FOLLOW fixpoint. -/
def followRound (pg : PG) (st : FFState) : FFState :=
  pg.nonTerminalSet.foldl
    (fun acc A => computeFollow (ffFuel pg) pg [] A acc)
    { st with resultAvailable := [] }

/-- The vector of FOLLOW-set sizes over the fixed non-terminal list. -/
def followCounts (pg : PG) (st : FFState) : List Nat :=
  pg.nonTerminalSet.map (fun A => (st.follow A).length)

/-- The outer FOLLOW fixpoint loop. -/
def followFixpoint : Nat → PG → FFState → FFState
  | 0, _, st => st
  | n + 1, pg, st =>
    let st1 := followRound pg st
    if followCounts pg st1 = followCounts pg st then st1
    else followFixpoint n pg st1

/-- `ParserGenerator.process_first_follow`: FIRST fixpoint, seed the
root's FOLLOW set with END, FOLLOW fixpoint. -/
def processFirstFollow (rounds : Nat) (pg : PG) (st : FFState) : FFState :=
  followFixpoint rounds pg (seedFollow pg (firstFixpoint rounds pg st))

/-- The message of the assertion `assert(len(index_list) == 1)` inside
`compute_follow` (syntax.py:392). -/
def followAssertMsg : String := "AssertionError: len(index_list) == 1"

/-- Faithful fallible body of `compute_follow` for one production at
one occurrence position (same updates as `followProdAt`, with the
recursion `cf` now fallible). -/
def followProdAtA (pg : PG) (cf : FFState → String → Except String FFState)
    (A : String) (p : Production) (index : Nat) (st : FFState) :
    Except String FFState :=
  if index = p.rhs.length - 1 then do
    let st1 ← cf st p.lhs
    .ok (unionFollow A (st1.follow p.lhs) st1)
  else
    let sub := computeSubstringFirst pg st p (index + 1)
    if "T_" ∈ sub then do
      let st1 ← cf st p.lhs
      let st2 := unionFollow A (st1.follow p.lhs) st1
      .ok (unionFollow A (sub.erase "T_") st2)
    else
      .ok (unionFollow A sub st)

/-- `compute_follow`'s per-production step, faithful to the source:
`index_list = p.get_symbol_index(self)` is computed, the assertion
`len(index_list) == 1` raises `AssertionError` when violated, and
otherwise processing happens at `index_list[0]`. -/
def followProdA (pg : PG) (cf : FFState → String → Except String FFState)
    (A : String) (p : Production) (st : FFState) : Except String FFState :=
  let indexList := p.getSymbolIndex A
  if indexList.length = 1 then followProdAtA pg cf A p (indexList.headD 0) st
  else .error followAssertMsg

/-- `NonTerminal.compute_follow`, fuelled and faithful (the assertion
raises): memoisation guard, path guard, then the fallible loop over
`A.rhs_set`. -/
def computeFollowA : Nat → PG → List String → String → FFState →
    Except String FFState
  | 0, _, _, _, st => .ok st
  | fuel + 1, pg, path, A, st =>
    if A ∈ st.resultAvailable then .ok st
    else
      let st1 := { st with resultAvailable := insertU st.resultAvailable A }
      if A ∈ path then .ok st1
      else
        (rhsProds pg A).foldlM
          (fun acc p =>
            followProdA pg
              (fun s2 B => computeFollowA fuel pg (path ++ [A]) B s2)
              A p acc)
          st1

/-- One outer round of the faithful FOLLOW fixpoint. -/
def followRoundA (pg : PG) (st : FFState) : Except String FFState :=
  pg.nonTerminalSet.foldlM
    (fun acc A => computeFollowA (ffFuel pg) pg [] A acc)
    { st with resultAvailable := [] }

/-- The outer faithful FOLLOW fixpoint loop. -/
def followFixpointA : Nat → PG → FFState → Except String FFState
  | 0, _, st => .ok st
  | n + 1, pg, st => do
    let st1 ← followRoundA pg st
    if followCounts pg st1 = followCounts pg st then .ok st1
    else followFixpointA n pg st1

/-- Faithful stage F: FIRST fixpoint (`compute_first` carries no
assertion), seeding, then the faithful FOLLOW fixpoint. -/
def processFirstFollowA (rounds : Nat) (pg : PG) (st : FFState) :
    Except String FFState :=
  followFixpointA rounds pg (seedFollow pg (firstFixpoint rounds pg st))

/-- The error, if any, of a faithful FOLLOW computation. -/
def errOfFF : Except String FFState → Option String
  | .error msg => some msg
  | .ok _ => none

/-- The parsing table: a map from (non-terminal, look-ahead terminal)
pairs to productions, modelled as an association list with unique
keys. -/
def Table := List ((String × String) × Production)

/-- Table lookup. -/
def tableFind : List ((String × String) × Production) → String × String → Option Production
  | [], _ => none
  | (k, v) :: rest, key => if k = key then some v else tableFind rest key

/-- Single table assignment: a duplicate `(A, terminal)` key raises
`KeyError` instead of overwriting. -/
def tableInsert (t : List ((String × String) × Production))
    (key : String × String) (p : Production) :
    Except String (List ((String × String) × Production)) :=
  match tableFind t key with
  | some _ => .error "Duplicated entry"
  | none => .ok ((key, p) :: t)

/-- `ParserGenerator.generate_parsing_table`: for each production,
assign every non-EMPTY member of its FIRST set, and, when EMPTY is in
its FIRST set, additionally every member of the LHS's FOLLOW set. -/
def generateParsingTable (pg : PG) (st : FFState) :
    Except String (List ((String × String) × Production)) :=
  pg.productionSet.foldlM
    (fun t p => do
      let t1 ← (st.prodFirst p).foldlM
        (fun acc x =>
          if x = "T_" then .ok acc else tableInsert acc (p.lhs, x) p) t
      if "T_" ∈ st.prodFirst p then
        (st.follow p.lhs).foldlM
          (fun acc y => tableInsert acc (p.lhs, y) p) t1
      else
        .ok t1)
    []

/-- A filtered grammar line is an LHS declaration when its last
character is a colon. -/
def lineIsDecl (l : String) : Bool := l.data.getLast? == some ':'

/-- The declared name: the line with the trailing colon stripped. -/
def declName (l : String) : String := String.mk l.data.dropLast

/-- Whitespace-splitting scan over the characters of a body line. -/
def tokensAux : List Char → List Char → List String
  | [], cur => if cur = [] then [] else [String.mk cur.reverse]
  | c :: rest, cur =>
    if c = ' ' then
      (if cur = [] then tokensAux rest []
       else String.mk cur.reverse :: tokensAux rest [])
    else tokensAux rest (c :: cur)

/-- Whitespace-splitting of a body line into symbol names. -/
def tokensOf (l : String) : List String := tokensAux l.data []

/-- State of the symbol pass: declared non-terminals and the
`in_doubt` names seen only in bodies so far. -/
structure SymState where
  nts : List String
  doubt : List String

/-- One line of `ParserGenerator.process_symbol`: a declaration names
a non-terminal (duplicates are an error) and removes it from the doubt
set; a body line adds every token not yet declared to the doubt set. -/
def symbolStep (st : SymState) (line : String) : Except String SymState :=
  if lineIsDecl line then
    let name := declName line
    if name ∈ st.nts then .error "Duplication definition of non-terminal"
    else .ok ⟨st.nts ++ [name], st.doubt.erase name⟩
  else
    .ok ⟨st.nts,
      (tokensOf line).foldl
        (fun d tok => if tok ∈ st.nts then d else insertU d tok) st.doubt⟩

/-- `ParserGenerator.process_symbol` over the filtered lines: after
the pass, every name still in doubt becomes a terminal. -/
def processSymbol (lines : List String) : Except String PG := do
  let st ← lines.foldlM symbolStep ⟨[], []⟩
  .ok { terminalSet := st.doubt, nonTerminalSet := st.nts,
        productionSet := [], newNameIndex := fun _ => 1,
        rootSymbol := none }

/-- State of the production pass: the grammar built so far, the
current LHS, and whether that LHS has produced a body line yet. -/
structure ProdState where
  pg : PG
  currentNT : Option String
  hasBody : Bool

/-- One line of `ParserGenerator.process_production`: a declaration
checks that the previous LHS had a body and opens a new LHS; a body
line requires an open LHS, resolves its tokens, and constructs the
production. -/
def prodStep (st : ProdState) (line : String) : Except String ProdState :=
  if lineIsDecl line then
    if st.hasBody = false then
      .error "Production does not have a body"
    else
      let name := declName line
      if name ∈ st.pg.nonTerminalSet then
        .ok { st with currentNT := some name, hasBody := false }
      else
        .error "assertion: LHS name was not declared"
  else
    match st.currentNT with
    | none => .error "The syntax must start with a non-terminal"
    | some nt =>
      let toks := tokensOf line
      if toks.all (fun s =>
          st.pg.nonTerminalSet.contains s || st.pg.terminalSet.contains s) then do
        let pg1 ← addProduction st.pg ⟨nt, toks⟩
        .ok { pg := pg1, currentNT := some nt, hasBody := true }
      else
        .error "assertion: unknown symbol in body"

/-- `ParserGenerator.process_production` over the filtered lines. -/
def processProduction (lines : List String) (pg : PG) : Except String PG := do
  let st ← lines.foldlM prodStep ⟨pg, none, true⟩
  .ok st.pg

/-- Outcome of `ParserGenerator.process_root_symbol`: success, or a
failure for zero or multiple root candidates (the multiple-candidate
failure reports every candidate). -/
inductive RootResult where
  | ok (pg : PG)
  | multiple (candidates : List String)
  | notFound
deriving Nonempty

/-- `ParserGenerator.process_root_symbol`: collect the non-terminals
with an empty `rhs_set`; more than one is an error reporting all
candidates, zero is an error, and exactly one becomes the root. -/
def processRootSymbol (pg : PG) : RootResult :=
  let cands := pg.nonTerminalSet.filter (fun A => rhsProds pg A = [])
  if 1 < cands.length then .multiple cands
  else
    match cands with
    | [] => .notFound
    | c :: _ => .ok { pg with rootSymbol := some c }

/-- The loader front of `read_file`: symbol pass then production
pass. -/
def loadGrammarE (lines : List String) : Except String PG := do
  let pg0 ← processSymbol lines
  processProduction lines pg0

/-- Extract the grammar of a successful stage (defaulting to the empty
grammar; used only to name results of stages proven successful). -/
def getPG (e : Except String PG) : PG :=
  match e with
  | .ok pg => pg
  | .error _ => emptyPG

/-- Extract the grammar of a successful root resolution. -/
def getRootPG (r : RootResult) : PG :=
  match r with
  | .ok pg => pg
  | _ => emptyPG

/-- State of the demo driver: the symbol stack (head is the top) and
the input cursor. -/
structure DemoState where
  stack : List String
  index : Nat
deriving DecidableEq, Repr

deriving instance DecidableEq for Except

/-- The demo driver's loop: pop the top; EMPTY is skipped, a terminal
must match the current input token (consuming it), and a non-terminal
is looked up in the table, pushing the production's RHS reversed.  The
loop stops, without further checks, when the stack is empty; `none`
means the fuel ran out. -/
def demoRun (pg : PG) (t : List ((String × String) × Production))
    (input : List String) : Nat → DemoState → Option (Except String DemoState)
  | 0, _ => none
  | fuel + 1, st =>
    match st.stack with
    | [] => some (.ok st)
    | top :: rest =>
      if top ∈ pg.terminalSet then
        if top = "T_" then demoRun pg t input fuel ⟨rest, st.index⟩
        else
          match input.get? st.index with
          | none => some (.error "token index out of range")
          | some tok =>
            if top = tok then demoRun pg t input fuel ⟨rest, st.index + 1⟩
            else some (.error "Could not match token")
      else
        match input.get? st.index with
        | none => some (.error "token index out of range")
        | some tok =>
          match tableFind t (top, tok) with
          | none => some (.error "Could not find entry in parsing table")
          | some p => demoRun pg t input fuel ⟨p.rhs ++ rest, st.index⟩

/-- Success test for a stage returning `Except String PG`. -/
def isOkPG : Except String PG → Bool
  | .ok _ => true
  | .error _ => false

/-- The assertion inside `compute_follow` (and the validator's check
6): every non-terminal occurs at exactly one RHS position in each
production of its `rhs_set`. -/
def FollowAssertHolds (pg : PG) : Prop :=
  ∀ A ∈ pg.nonTerminalSet, ∀ p ∈ rhsProds pg A,
    (p.getSymbolIndex A).length = 1

instance (pg : PG) : Decidable (FollowAssertHolds pg) :=
  inferInstanceAs (Decidable (∀ A ∈ pg.nonTerminalSet,
    ∀ p ∈ rhsProds pg A, (p.getSymbolIndex A).length = 1))

/-- The invariant bundle for running `eliminate_left_recursion` over a
work list `l` of non-terminals: all productions whose LHS is not
pending are free of direct left recursion, pending left-recursive
productions have something after the leading LHS, and the names the
rewrite would synthesise are fresh.  The grammar loader establishes
the bundle for `l` the full non-terminal list whenever no production
is of the degenerate form `A → A`. -/
structure ElimInv (pg : PG) (l : List String) : Prop where
  clean : ∀ p ∈ pg.productionSet, p.lhs ∉ l → ¬ p.rhs.head? = some p.lhs
  pendingLen : ∀ p ∈ pg.productionSet, p.rhs.head? = some p.lhs →
    2 ≤ p.rhs.length
  fresh : ∀ B ∈ l, ¬ UsesName pg (newNameOf pg B)
  freshNotEmpty : ∀ B ∈ l, ¬ newNameOf pg B = "T_"
  freshPairwise : ∀ B ∈ l, ∀ C ∈ l, ¬ B = C →
    ¬ newNameOf pg B = newNameOf pg C
  scheduled : ∀ B ∈ l, B ∈ pg.nonTerminalSet
  nodup : l.Nodup

/-- Scenario exhibiting the EMPTY leak of `compute_first`: `S → A T_B`
with nullable `A`. -/
def linesC1 : List String := ["S:", "A T_B", "A:", "T_A", "T_"]

def pgC1 : PG := getRootPG (processRootSymbol (getPG (loadGrammarE linesC1)))

def stC1 : FFState := firstFixpoint 10 pgC1 initFF

def pC1 : Production := ⟨"S", ["A", "T_B"]⟩

/-- Grammar with a directly left-recursive `T` under the root `E`,
for the rewrite scenario. -/
def linesC2 : List String := ["E:", "T T_END", "T:", "T T_STAR", "T_ID"]

def pgC2 : PG := getRootPG (processRootSymbol (getPG (loadGrammarE linesC2)))

def pgC2out : PG := getPG (eliminateLeftRecursion pgC2 "T")

def pgC2lr : PG := getPG (processLeftRecursion pgC2)

/-- Grammar with indirect (but no direct) left recursion between `S`
and `A`, under the root `R`. -/
def linesC3 : List String := ["R:", "S T_Z", "S:", "A T_X", "A:", "S T_Y"]

def pgC3 : PG := getRootPG (processRootSymbol (getPG (loadGrammarE linesC3)))

/-- Grammar whose production `S → A T_X A T_Y` mentions `A` at two
positions. -/
def linesC4 : List String := ["R:", "S", "S:", "A T_X A T_Y", "A:", "T_A"]

def pgC4 : PG := getRootPG (processRootSymbol (getPG (loadGrammarE linesC4)))

def stC4 : FFState := processFirstFollow 10 pgC4 initFF

def pC4 : Production := ⟨"S", ["A", "T_X", "A", "T_Y"]⟩

/-- Grammar with the degenerate left-recursive production `A → A`. -/
def linesC8 : List String := ["R:", "A T_X", "A:", "A", "T_A"]

def pgC8a : PG := getRootPG (processRootSymbol (getPG (loadGrammarE linesC8)))

def pgC8b : PG := getPG (processLeftRecursion pgC8a)

def pgC8c : PG := getPG (processLeftRecursion pgC8b)

/-- One-production grammar `S → T_A`, driven end to end up to the
parse table. -/
def linesC9 : List String := ["S:", "T_A"]

def pgC9 : PG := getRootPG (processRootSymbol (getPG (loadGrammarE linesC9)))

def stC9 : FFState := processFirstFollow 10 pgC9 initFF

def tC9 : List ((String × String) × Production) :=
  match generateParsingTable pgC9 stC9 with
  | .ok t => t
  | .error _ => []

/-- A token stream with trailing garbage after the derivable prefix. -/
def inputC9 : List String := ["T_A", "T_B", "T_EOF"]

/-- Grammar with two root candidates. -/
def linesC7 : List String := ["R1:", "T_A", "R2:", "T_B"]

def pgC7 : PG := getPG (loadGrammarE linesC7)

/-- Grammar file whose final line declares `X` with no body after
it. -/
def linesC10 : List String := ["S:", "T_A", "X:"]

def pgC10sym : PG := getPG (processSymbol linesC10)

/-- The FOLLOW invariant of the claim set: EMPTY is in no FOLLOW
set. -/
def NoEmptyFollow (st : FFState) : Prop := ∀ B, "T_" ∉ st.follow B

/-- Success test for the table builder. -/
def isOkT : Except String (List ((String × String) × Production)) → Bool
  | .ok _ => true
  | .error _ => false

/-- Success test for a production-pass state. -/
def isOkPS : Except String ProdState → Bool
  | .ok _ => true
  | .error _ => false

/-- Extract the state of a successful production pass. -/
def getPS : Except String ProdState → ProdState
  | .ok st => st
  | .error _ => ⟨emptyPG, none, true⟩

/-- The production-pass state after the first two lines of
`linesC10`. -/
def psC10 : ProdState :=
  getPS (List.foldlM prodStep ⟨pgC10sym, none, true⟩ ["S:", "T_A"])


theorem mem_insertU {l : List String} {x y : String} :
    x ∈ insertU l y ↔ x ∈ l ∨ x = y := by
  unfold insertU
  by_cases h : y ∈ l
  · rw [if_pos h]
    constructor
    · exact Or.inl
    · rintro (hx | rfl)
      · exact hx
      · exact h
  · rw [if_neg h]
    simp

theorem nodup_insertU {l : List String} {y : String} (h : l.Nodup) :
    (insertU l y).Nodup := by
  unfold insertU
  by_cases hy : y ∈ l
  · rwa [if_pos hy]
  · rw [if_neg hy]
    simp [List.nodup_append, h, hy]

theorem unionL_cons {l1 : List String} {a : String} {l2 : List String} :
    unionL l1 (a :: l2) = unionL (insertU l1 a) l2 := rfl

theorem unionL_nil {l1 : List String} : unionL l1 [] = l1 := rfl

theorem mem_unionL {l2 l1 : List String} {x : String} :
    x ∈ unionL l1 l2 ↔ x ∈ l1 ∨ x ∈ l2 := by
  induction l2 generalizing l1 with
  | nil => simp [unionL_nil]
  | cons a l2 ih =>
    rw [unionL_cons, ih, mem_insertU]
    simp only [List.mem_cons]
    tauto

theorem nodup_unionL {l2 l1 : List String} (h : l1.Nodup) :
    (unionL l1 l2).Nodup := by
  induction l2 generalizing l1 with
  | nil => exact h
  | cons a l2 ih => rw [unionL_cons]; exact ih (nodup_insertU h)

theorem substringFirstAux_nodup (pg : PG) (st : FFState) :
    ∀ (l ret : List String), ret.Nodup →
      (substringFirstAux pg st l ret).Nodup := by
  intro l
  induction l with
  | nil => intro ret h; exact nodup_insertU h
  | cons s rest ih =>
    intro ret h
    unfold substringFirstAux
    by_cases hs : s ∈ pg.terminalSet
    · rw [if_pos hs]; exact nodup_insertU h
    · rw [if_neg hs]
      by_cases he : "T_" ∈ st.ntFirst s
      · rw [if_pos he]
        exact ih _ ((nodup_unionL h).erase _)
      · rw [if_neg he]
        exact (nodup_unionL h).erase _

theorem computeSubstringFirst_nodup (pg : PG) (st : FFState)
    (p : Production) (i : Nat) : (computeSubstringFirst pg st p i).Nodup :=
  substringFirstAux_nodup pg st _ [] List.nodup_nil

theorem foldlM_addProduction_ok :
    ∀ (l : List Production) (pg pg' : PG),
      List.foldlM addProduction pg l = .ok pg' →
      (∀ x : Production,
        x ∈ pg'.productionSet ↔ x ∈ pg.productionSet ∨ x ∈ l) ∧
      pg'.terminalSet = pg.terminalSet ∧
      pg'.nonTerminalSet = pg.nonTerminalSet ∧
      pg'.newNameIndex = pg.newNameIndex ∧
      pg'.rootSymbol = pg.rootSymbol
  | [], pg, pg', h => by
    rw [List.foldlM_nil] at h
    cases h
    simp
  | p :: l, pg, pg', h => by
    rw [List.foldlM_cons] at h
    unfold addProduction at h
    by_cases hp : p ∈ pg.productionSet
    · rw [if_pos hp] at h
      cases h
    · rw [if_neg hp] at h
      have ih := foldlM_addProduction_ok l _ pg' h
      obtain ⟨hmem, ht, hn, hi, hr⟩ := ih
      refine ⟨fun x => ?_, ht, hn, hi, hr⟩
      rw [hmem x]
      simp only [List.mem_append, List.mem_singleton, List.mem_cons]
      tauto

theorem eliminateLR_id (pg : PG) (A : String)
    (h : ¬ ExistsDirectLeftRecursion pg A) :
    eliminateLeftRecursion pg A = .ok pg := by
  unfold eliminateLeftRecursion
  rw [if_neg h]

theorem eliminateLR_ok_char (pg : PG) (A : String) (pg' : PG)
    (hrec : ExistsDirectLeftRecursion pg A)
    (h : eliminateLeftRecursion pg A = .ok pg') :
    (∀ x : Production, x ∈ pg'.productionSet ↔
      (x ∈ pg.productionSet ∧ ¬ x.lhs = A) ∨
      (∃ b ∈ pg.productionSet, b.lhs = A ∧ ¬ b.rhs.head? = some A ∧
        x = ⟨A, if b.rhs = ["T_"] then [newNameOf pg A]
                else b.rhs ++ [newNameOf pg A]⟩) ∨
      (∃ a ∈ pg.productionSet, a.lhs = A ∧ a.rhs.head? = some A ∧
        x = ⟨newNameOf pg A, a.rhs.tail ++ [newNameOf pg A]⟩) ∨
      x = ⟨newNameOf pg A, ["T_"]⟩) ∧
    pg'.nonTerminalSet = insertU pg.nonTerminalSet (newNameOf pg A) ∧
    pg'.terminalSet = insertU pg.terminalSet "T_" ∧
    pg'.newNameIndex =
      Function.update pg.newNameIndex A (pg.newNameIndex A + 1) ∧
    pg'.rootSymbol = pg.rootSymbol := by
  unfold eliminateLeftRecursion at h
  rw [if_pos hrec] at h
  simp only [] at h
  have hc := foldlM_addProduction_ok _ _ _ h
  obtain ⟨hmem, ht, hn, hi, hr⟩ := hc
  refine ⟨fun x => ?_, hn, ht, hi, hr⟩
  rw [hmem x]
  simp only [lhsProds, List.mem_filter, List.mem_append, List.mem_map,
    List.mem_singleton, decide_eq_true_eq, decide_not, Bool.not_eq_true',
    decide_eq_false_iff_not]
  constructor
  · rintro (⟨hx, hlhs⟩ | ⟨⟨b, ⟨⟨hb, hbl⟩, hbh⟩, hbe⟩ | ⟨a, ⟨⟨ha, hal⟩, hah⟩, hae⟩⟩ | rfl)
    · exact Or.inl ⟨hx, hlhs⟩
    · exact Or.inr (Or.inl ⟨b, hb, hbl, hbh, hbe.symm⟩)
    · exact Or.inr (Or.inr (Or.inl ⟨a, ha, hal, hah, hae.symm⟩))
    · exact Or.inr (Or.inr (Or.inr rfl))
  · rintro (⟨hx, hlhs⟩ | ⟨b, hb, hbl, hbh, hbe⟩ | ⟨a, ha, hal, hah, hae⟩ | rfl)
    · exact Or.inl ⟨hx, hlhs⟩
    · exact Or.inr (Or.inl (Or.inl ⟨b, ⟨⟨hb, hbl⟩, hbh⟩, hbe.symm⟩))
    · exact Or.inr (Or.inl (Or.inr ⟨a, ⟨⟨ha, hal⟩, hah⟩, hae.symm⟩))
    · exact Or.inr (Or.inr rfl)

theorem mem_lhsProds {pg : PG} {A : String} {p : Production} :
    p ∈ lhsProds pg A ↔ p ∈ pg.productionSet ∧ p.lhs = A := by
  simp [lhsProds, List.mem_filter]

theorem mem_rhsProds {pg : PG} {A : String} {p : Production} :
    p ∈ rhsProds pg A ↔ p ∈ pg.productionSet ∧ A ∈ p.rhs := by
  simp [rhsProds, List.mem_filter]

theorem elimInv_step (pg : PG) (A : String) (tl : List String) (pg1 : PG)
    (inv : ElimInv pg (A :: tl))
    (h : eliminateLeftRecursion pg A = .ok pg1) :
    ElimInv pg1 tl := by
  by_cases hrec : ExistsDirectLeftRecursion pg A
  case neg =>
    rw [eliminateLR_id pg A hrec] at h
    cases h
    refine ⟨?_, inv.pendingLen, ?_, ?_, ?_, ?_, inv.nodup.of_cons⟩
    · intro p hp hpl
      by_cases hA : p.lhs = A
      · intro hhead
        exact hrec ⟨p, mem_lhsProds.mpr ⟨hp, hA⟩, hA ▸ hhead⟩
      · exact inv.clean p hp (by
          simp only [List.mem_cons]
          rintro (h1 | h2)
          · exact hA h1
          · exact hpl h2)
    · exact fun B hB => inv.fresh B (List.mem_cons_of_mem _ hB)
    · exact fun B hB => inv.freshNotEmpty B (List.mem_cons_of_mem _ hB)
    · exact fun B hB C hC => inv.freshPairwise B (List.mem_cons_of_mem _ hB)
        C (List.mem_cons_of_mem _ hC)
    · exact fun B hB => inv.scheduled B (List.mem_cons_of_mem _ hB)
  case pos =>
    obtain ⟨hmem, hn, ht, hi, hr⟩ := eliminateLR_ok_char pg A pg1 hrec h
    have hAuses : UsesName pg A := by
      obtain ⟨p, hp, _⟩ := hrec
      obtain ⟨hp1, hp2⟩ := mem_lhsProds.mp hp
      exact Or.inr (Or.inr ⟨p, hp1, Or.inl hp2.symm⟩)
    have hAhead : A ∈ A :: tl := List.mem_cons_self _ _
    have hNnotUsed : ¬ UsesName pg (newNameOf pg A) := inv.fresh A hAhead
    have hNA : ¬ newNameOf pg A = A := fun he =>
      hNnotUsed (by rw [he]; exact hAuses)
    have hAnotTail : A ∉ tl := (List.nodup_cons.mp inv.nodup).1
    have hNnotTail : newNameOf pg A ∉ tl := fun hin =>
      hNnotUsed (Or.inl (inv.scheduled _ (List.mem_cons_of_mem _ hin)))
    have hNne : ¬ newNameOf pg A = "T_" := inv.freshNotEmpty A hAhead
    -- every name used by the rewritten grammar was used before, or is
    -- the fresh name, or is EMPTY
    have husesImp : ∀ x, UsesName pg1 x →
        UsesName pg x ∨ x = newNameOf pg A ∨ x = "T_" := by
      intro x hx
      rcases hx with hx | hx | ⟨p, hp, hx⟩
      · rw [hn, mem_insertU] at hx
        rcases hx with hx | hx
        · exact Or.inl (Or.inl hx)
        · exact Or.inr (Or.inl hx)
      · rw [ht, mem_insertU] at hx
        rcases hx with hx | hx
        · exact Or.inl (Or.inr (Or.inl hx))
        · exact Or.inr (Or.inr hx)
      · rcases (hmem p).mp hp with ⟨hp1, _⟩ | ⟨b, hb, _, _, rfl⟩ |
          ⟨a, ha, _, _, rfl⟩ | rfl
        · exact Or.inl (Or.inr (Or.inr ⟨p, hp1, hx⟩))
        · rcases hx with rfl | hx
          · exact Or.inl hAuses
          · by_cases hbr : b.rhs = ["T_"]
            · rw [if_pos hbr] at hx
              simp only [List.mem_singleton] at hx
              exact Or.inr (Or.inl hx)
            · rw [if_neg hbr] at hx
              simp only [List.mem_append, List.mem_singleton] at hx
              rcases hx with hx | hx
              · exact Or.inl (Or.inr (Or.inr ⟨b, hb, Or.inr hx⟩))
              · exact Or.inr (Or.inl hx)
        · rcases hx with rfl | hx
          · exact Or.inr (Or.inl rfl)
          · simp only [List.mem_append, List.mem_singleton] at hx
            rcases hx with hx | hx
            · exact Or.inl (Or.inr (Or.inr
                ⟨a, ha, Or.inr (List.mem_of_mem_tail hx)⟩))
            · exact Or.inr (Or.inl hx)
        · rcases hx with rfl | hx
          · exact Or.inr (Or.inl rfl)
          · simp only [List.mem_singleton] at hx
            exact Or.inr (Or.inr hx)
    -- no production of the rewritten grammar is directly left-recursive
    -- at a non-pending LHS
    have hclean1 : ∀ p ∈ pg1.productionSet, p.lhs ∉ tl →
        ¬ p.rhs.head? = some p.lhs := by
      intro p hp hpl
      rcases (hmem p).mp hp with ⟨hp1, hpA⟩ | ⟨b, hb, hbl, hbh, rfl⟩ |
        ⟨a, ha, hal, hah, rfl⟩ | rfl
      · exact inv.clean p hp1 (by
          simp only [List.mem_cons]
          rintro (h1 | h2)
          · exact hpA h1
          · exact hpl h2)
      · by_cases hbr : b.rhs = ["T_"]
        · rw [if_pos hbr]
          intro hhead
          simp only [List.head?] at hhead
          exact hNA (Option.some.inj hhead)
        · rw [if_neg hbr]
          intro hhead
          match hb2 : b.rhs with
          | [] =>
            rw [hb2] at hhead
            simp only [List.nil_append, List.head?] at hhead
            exact hNA (Option.some.inj hhead)
          | c :: cs =>
            rw [hb2] at hhead
            simp only [List.cons_append, List.head?] at hhead
            exact hbh (by rw [hb2]; simpa using hhead)
      · intro hhead
        have hlen := inv.pendingLen a ha (by rw [hah, hal])
        match ha2 : a.rhs with
        | [] => rw [ha2] at hlen; simp at hlen
        | [c] => rw [ha2] at hlen; simp at hlen
        | c :: d :: cs =>
          rw [ha2] at hhead
          simp only [List.tail_cons, List.cons_append, List.head?] at hhead
          have hdN : d = newNameOf pg A := Option.some.inj hhead
          exact hNnotUsed (Or.inr (Or.inr ⟨a, ha,
            Or.inr (by rw [ha2, hdN]; simp)⟩))
      · intro hhead
        simp only [List.head?] at hhead
        exact hNne (Option.some.inj hhead).symm
    refine ⟨hclean1, ?_, ?_, ?_, ?_, ?_, inv.nodup.of_cons⟩
    · -- pendingLen: every still-pending recursion is impossible after
      -- the step for LHSes outside the tail; for tail LHSes the
      -- productions are unchanged
      intro p hp hhead
      rcases (hmem p).mp hp with ⟨hp1, _⟩ | ⟨b, hb, hbl, hbh, rfl⟩ |
        ⟨a, ha, hal, hah, rfl⟩ | rfl
      · exact inv.pendingLen p hp1 hhead
      · exact absurd hhead (hclean1 _ hp hAnotTail)
      · exact absurd hhead (hclean1 _ hp hNnotTail)
      · exact absurd hhead (hclean1 _ hp hNnotTail)
    · intro B hB
      have hBA : ¬ B = A := fun he => hAnotTail (he ▸ hB)
      have hname : newNameOf pg1 B = newNameOf pg B := by
        unfold newNameOf
        rw [hi, Function.update_noteq hBA]
      rw [hname]
      intro huse
      rcases husesImp _ huse with huse1 | huse1 | huse1
      · exact inv.fresh B (List.mem_cons_of_mem _ hB) huse1
      · exact inv.freshPairwise B (List.mem_cons_of_mem _ hB) A hAhead hBA huse1
      · exact inv.freshNotEmpty B (List.mem_cons_of_mem _ hB) huse1
    · intro B hB
      have hBA : ¬ B = A := fun he => hAnotTail (he ▸ hB)
      unfold newNameOf
      rw [hi, Function.update_noteq hBA]
      exact inv.freshNotEmpty B (List.mem_cons_of_mem _ hB)
    · intro B hB C hC hBC
      have hBA : ¬ B = A := fun he => hAnotTail (he ▸ hB)
      have hCA : ¬ C = A := fun he => hAnotTail (he ▸ hC)
      unfold newNameOf
      rw [hi, Function.update_noteq hBA, Function.update_noteq hCA]
      exact inv.freshPairwise B (List.mem_cons_of_mem _ hB)
        C (List.mem_cons_of_mem _ hC) hBC
    · intro B hB
      rw [hn, mem_insertU]
      exact Or.inl (inv.scheduled B (List.mem_cons_of_mem _ hB))

theorem elimInv_fold :
    ∀ (l : List String) (pg pg' : PG), ElimInv pg l →
      List.foldlM eliminateLeftRecursion pg l = .ok pg' → ElimInv pg' []
  | [], pg, pg', inv, h => by
    rw [List.foldlM_nil] at h
    cases h
    exact inv
  | A :: l, pg, pg', inv, h => by
    rw [List.foldlM_cons] at h
    cases he : eliminateLeftRecursion pg A with
    | error e => rw [he] at h; exact (Except.noConfusion h)
    | ok pg1 =>
      rw [he] at h
      exact elimInv_fold l pg1 pg' (elimInv_step pg A l pg1 inv he) h

theorem processLR_ok_no_direct (pg pg' : PG)
    (inv : ElimInv pg pg.nonTerminalSet)
    (h : processLeftRecursion pg = .ok pg') :
    ∀ p ∈ pg'.productionSet, ¬ p.rhs.head? = some p.lhs :=
  fun p hp => (elimInv_fold _ _ _ inv h).clean p hp (List.not_mem_nil _)

theorem foldl_elim_clean_id :
    ∀ (l : List String) (pg : PG),
      (∀ p ∈ pg.productionSet, ¬ p.rhs.head? = some p.lhs) →
      List.foldlM eliminateLeftRecursion pg l = .ok pg
  | [], pg, _ => by rw [List.foldlM_nil]; rfl
  | A :: l, pg, hclean => by
    rw [List.foldlM_cons]
    have hrec : ¬ ExistsDirectLeftRecursion pg A := by
      rintro ⟨p, hp, hhead⟩
      obtain ⟨hp1, hp2⟩ := mem_lhsProds.mp hp
      exact hclean p hp1 (by rw [hp2]; exact hhead)
    rw [eliminateLR_id pg A hrec]
    exact foldl_elim_clean_id l pg hclean

theorem isOkPG_getPG {e : Except String PG} (h : isOkPG e = true) :
    e = .ok (getPG e) := by
  cases e with
  | ok pg => rfl
  | error msg => simp [isOkPG] at h

/-- C1: the claim states that after the FIRST fixpoint completes,
every live production's cached `first_set` equals
`compute_substring_first(0)`.  The code violates this: at the loaded
grammar `linesC1` (root `S`, productions `S → A T_B`, `A → T_A | T_`)
the FIRST fixpoint completes — a further round leaves every FIRST-set
size unchanged — with cached `first_set = {T_A, T_, T_B}` for
`S → A T_B`, while `compute_substring_first(0) = {T_A, T_B}`:
`compute_first` unions the whole FIRST set of the nullable `A`
(EMPTY included) into the production's cache and then continues, so
EMPTY is wrongly retained.  The code's own consistency assertion
(`p.first_set == p.compute_substring_first()`, syntax.py:1705) and the
docstring of `compute_substring_first` (syntax.py:745-749) therefore
fail on this input. -/
theorem C1_first_cache_bug :
    isOkPG (loadGrammarE linesC1) = true ∧
    pgC1.rootSymbol = some "S" ∧
    isOkPG (processLeftRecursion pgC1) = true ∧
    (getPG (processLeftRecursion pgC1)).productionSet = pgC1.productionSet ∧
    firstCounts pgC1 (firstRound pgC1 stC1) = firstCounts pgC1 stC1 ∧
    pC1 ∈ pgC1.productionSet ∧
    stC1.prodFirst pC1 = ["T_A", "T_", "T_B"] ∧
    computeSubstringFirst pgC1 stC1 pC1 0 = ["T_A", "T_B"] ∧
    ¬ stC1.prodFirst pC1 = computeSubstringFirst pgC1 stC1 pC1 0 :=
  ⟨by decide, by decide, by decide, by decide, by decide, by decide,
   by decide, by decide, by decide⟩

/-- C2: for a non-terminal `A` with a directly left-recursive
production, a successful rewrite retires every `A`-production and
installs exactly: `A → A'` for each non-left-recursive `A → δ` with
`δ = [EMPTY]`, `A → δ A'` for the other non-left-recursive ones,
`A' → γ A'` for each left-recursive `A → A γ`, and `A' → EMPTY`,
where `A'` is the fresh non-terminal named `A.name + "-" + k` for the
next counter value `k` (the counter being incremented). -/
theorem C2_rewrite_installs_exactly (pg : PG) (A : String) (pg' : PG)
    (hrec : ExistsDirectLeftRecursion pg A)
    (h : eliminateLeftRecursion pg A = .ok pg') :
    (∀ x : Production, x ∈ pg'.productionSet ↔
      (x ∈ pg.productionSet ∧ ¬ x.lhs = A) ∨
      (∃ b ∈ pg.productionSet, b.lhs = A ∧ ¬ b.rhs.head? = some A ∧
        x = ⟨A, if b.rhs = ["T_"]
                then [A ++ "-" ++ toString (pg.newNameIndex A)]
                else b.rhs ++ [A ++ "-" ++ toString (pg.newNameIndex A)]⟩) ∨
      (∃ a ∈ pg.productionSet, a.lhs = A ∧ a.rhs.head? = some A ∧
        x = ⟨A ++ "-" ++ toString (pg.newNameIndex A),
             a.rhs.tail ++ [A ++ "-" ++ toString (pg.newNameIndex A)]⟩) ∨
      x = ⟨A ++ "-" ++ toString (pg.newNameIndex A), ["T_"]⟩) ∧
    (∀ s : String, s ∈ pg'.nonTerminalSet ↔
      s ∈ pg.nonTerminalSet ∨ s = A ++ "-" ++ toString (pg.newNameIndex A)) ∧
    "T_" ∈ pg'.terminalSet ∧
    pg'.newNameIndex A = pg.newNameIndex A + 1 := by
  obtain ⟨hmem, hn, ht, hi, _⟩ := eliminateLR_ok_char pg A pg' hrec h
  refine ⟨hmem, ?_, ?_, ?_⟩
  · intro s
    rw [hn, mem_insertU]
    exact Iff.rfl
  · rw [ht, mem_insertU]
    exact Or.inr rfl
  · rw [hi, Function.update_same]

/-- C2 witness: at the loaded grammar `linesC2` (`E → T T_END`,
`T → T T_STAR | T_ID`), the rewrite of `T` installs `T → T_ID T-1`,
`T-1 → T_STAR T-1` and `T-1 → EMPTY`, retires `T → T T_STAR`, and
adds the non-terminal `T-1`. -/
theorem C2_rewrite_installs_exactly_witness :
    (⟨"T", ["T_ID", "T-1"]⟩ : Production) ∈ pgC2out.productionSet ∧
    (⟨"T-1", ["T_STAR", "T-1"]⟩ : Production) ∈ pgC2out.productionSet ∧
    (⟨"T-1", ["T_"]⟩ : Production) ∈ pgC2out.productionSet ∧
    (⟨"T", ["T", "T_STAR"]⟩ : Production) ∉ pgC2out.productionSet ∧
    "T-1" ∈ pgC2out.nonTerminalSet := by
  have h0 : isOkPG (eliminateLeftRecursion pgC2 "T") = true := by decide
  have hc := C2_rewrite_installs_exactly pgC2 "T"
    (getPG (eliminateLeftRecursion pgC2 "T")) (by decide) (isOkPG_getPG h0)
  obtain ⟨hmem, hn, _, _⟩ := hc
  refine ⟨?_, ?_, ?_, ?_, ?_⟩
  · exact (hmem _).mpr (Or.inr (Or.inl
      ⟨⟨"T", ["T_ID"]⟩, by decide, rfl, by decide, by decide⟩))
  · exact (hmem _).mpr (Or.inr (Or.inr (Or.inl
      ⟨⟨"T", ["T", "T_STAR"]⟩, by decide, rfl, by decide, by decide⟩)))
  · exact (hmem _).mpr (Or.inr (Or.inr (Or.inr (by decide))))
  · decide
  · exact (hn _).mpr (Or.inr (by decide))

/-- C3 counterexample: the claim asserts that after stage E no
non-terminal `A` satisfies `A ∈ first_rhs_set(A)` for every grammar
the loader accepts.  The grammar `linesC3` (`R → S T_Z`, `S → A T_X`,
`A → S T_Y`) loads with unique root `R`, stage E succeeds leaving the
grammar completely unchanged (there is no direct left recursion to
rewrite), and yet `A ∈ first_rhs_set(A)` afterwards: the rewriter
does not touch indirect left recursion, which is only detected and
rejected later by the validator. -/
theorem C3_counterexample :
    isOkPG (loadGrammarE linesC3) = true ∧
    pgC3.rootSymbol = some "R" ∧
    isOkPG (processLeftRecursion pgC3) = true ∧
    (getPG (processLeftRecursion pgC3)).productionSet = pgC3.productionSet ∧
    (getPG (processLeftRecursion pgC3)).nonTerminalSet = pgC3.nonTerminalSet ∧
    "A" ∈ firstRhsSet (getPG (processLeftRecursion pgC3)) "A" ∧
    "S" ∈ firstRhsSet (getPG (processLeftRecursion pgC3)) "S" :=
  ⟨by decide, by decide, by decide, by decide, by decide, by decide,
   by decide⟩

/-- C3 amended: after a successful stage E run whose input grammar
satisfies the freshness/well-formedness bundle `ElimInv` (fresh
synthesised names, every directly left-recursive production carrying
at least one symbol after the leading LHS, all recursion pending on
declared non-terminals), no production of the resulting grammar has
its own LHS as its first RHS symbol.  The absence of indirect left
recursion is not established by stage E (see the counterexample); it
is checked and rejected by the validator instead. -/
theorem C3_amended_no_direct_after_rewrite (pg pg' : PG)
    (inv : ElimInv pg pg.nonTerminalSet)
    (h : processLeftRecursion pg = .ok pg') :
    ∀ p ∈ pg'.productionSet, ¬ p.rhs.head? = some p.lhs :=
  processLR_ok_no_direct pg pg' inv h

/-- C3 amended witness: in the rewrite of the `linesC2` grammar, the
surviving `T`-production is not directly left-recursive. -/
theorem C3_amended_no_direct_after_rewrite_witness :
    ¬ (Production.mk "T" ["T_ID", "T-1"]).rhs.head? =
      some (Production.mk "T" ["T_ID", "T-1"]).lhs :=
  C3_amended_no_direct_after_rewrite pgC2 pgC2lr
    ⟨by decide, by decide, by decide, by decide, by decide, by decide,
     by decide⟩
    (isOkPG_getPG (by decide))
    ⟨"T", ["T_ID", "T-1"]⟩ (by decide)

/-- C8 counterexample: the claim asserts idempotence of stage E for
every grammar on which it has already run.  Starting from the loaded
grammar `linesC8` (`R → A T_X`, `A → A | T_A`), the first run
succeeds and produces a grammar containing `A-1 → A-1` (the rewrite
of the degenerate left-recursive production `A → A`); the second run
then rewrites `A-1`, adding the fresh non-terminal `A-1-1` and the
production `A-1-1 → T_`, so the second run adds productions and
introduces a new non-terminal. -/
theorem C8_counterexample :
    isOkPG (loadGrammarE linesC8) = true ∧
    pgC8a.rootSymbol = some "R" ∧
    isOkPG (processLeftRecursion pgC8a) = true ∧
    isOkPG (processLeftRecursion pgC8b) = true ∧
    (⟨"A-1", ["A-1"]⟩ : Production) ∈ pgC8b.productionSet ∧
    "A-1-1" ∉ pgC8b.nonTerminalSet ∧
    "A-1-1" ∈ pgC8c.nonTerminalSet ∧
    (⟨"A-1-1", ["T_"]⟩ : Production) ∉ pgC8b.productionSet ∧
    (⟨"A-1-1", ["T_"]⟩ : Production) ∈ pgC8c.productionSet ∧
    pgC8b.productionSet.length = 4 ∧
    pgC8c.productionSet.length = 5 :=
  ⟨by decide, by decide, by decide, by decide, by decide, by decide,
   by decide, by decide, by decide, by decide, by decide⟩

/-- C8 amended: left-recursion elimination is idempotent for
well-formed inputs: if the first run succeeds on a grammar satisfying
the `ElimInv` bundle (fresh names, no degenerate `A → A`-only
left-recursive production), the second run returns the rewritten
grammar completely unchanged — no productions added, no new
non-terminals. -/
theorem C8_amended_idempotent (pg pg' : PG)
    (inv : ElimInv pg pg.nonTerminalSet)
    (h : processLeftRecursion pg = .ok pg') :
    processLeftRecursion pg' = .ok pg' := by
  unfold processLeftRecursion
  exact foldl_elim_clean_id _ _ (processLR_ok_no_direct pg pg' inv h)

/-- C8 amended witness: a second rewrite of the already-rewritten
`linesC2` grammar returns it unchanged. -/
theorem C8_amended_idempotent_witness :
    processLeftRecursion pgC2lr = .ok pgC2lr :=
  C8_amended_idempotent pgC2 pgC2lr
    ⟨by decide, by decide, by decide, by decide, by decide, by decide,
     by decide⟩
    (isOkPG_getPG (by decide))

theorem foldl_inv {α β : Type} (g : β → α → β) (Q : β → Prop) :
    ∀ (l : List α) (b : β), Q b →
      (∀ s a, a ∈ l → Q s → Q (g s a)) → Q (List.foldl g b l)
  | [], _, hb, _ => hb
  | a :: l, b, hb, hstep =>
    foldl_inv g Q l (g b a) (hstep b a (List.mem_cons_self a l) hb)
      (fun s x hx hs => hstep s x (List.mem_cons_of_mem a hx) hs)

theorem noEmptyFollow_unionFollow {st : FFState} {A : String}
    {s : List String} (h : NoEmptyFollow st) (hs : "T_" ∉ s) :
    NoEmptyFollow (unionFollow A s st) := by
  intro B
  show "T_" ∉ Function.update st.follow A (unionL (st.follow A) s) B
  by_cases hBA : B = A
  · subst hBA
    rw [Function.update_same]
    intro hmem
    rcases mem_unionL.mp hmem with h1 | h1
    · exact h B h1
    · exact hs h1
  · rw [Function.update_noteq hBA]
    exact h B

theorem followProdAt_NEF (pg : PG) (cf : FFState → String → FFState)
    (hcf : ∀ s B, NoEmptyFollow s → NoEmptyFollow (cf s B))
    (A : String) (p : Production) (i : Nat) (st : FFState)
    (h : NoEmptyFollow st) : NoEmptyFollow (followProdAt pg cf A p i st) := by
  unfold followProdAt
  by_cases h1 : i = p.rhs.length - 1
  · rw [if_pos h1]
    exact noEmptyFollow_unionFollow (hcf st p.lhs h) (hcf st p.lhs h p.lhs)
  · rw [if_neg h1]
    simp only []
    by_cases h2 : "T_" ∈ computeSubstringFirst pg st p (i + 1)
    · rw [if_pos h2]
      refine noEmptyFollow_unionFollow ?_ ?_
      · exact noEmptyFollow_unionFollow (hcf st p.lhs h) (hcf st p.lhs h p.lhs)
      · exact (computeSubstringFirst_nodup pg st p (i + 1)).not_mem_erase
    · rw [if_neg h2]
      exact noEmptyFollow_unionFollow h h2

theorem followProd_NEF (pg : PG) (cf : FFState → String → FFState)
    (hcf : ∀ s B, NoEmptyFollow s → NoEmptyFollow (cf s B))
    (A : String) (p : Production) (st : FFState)
    (h : NoEmptyFollow st) : NoEmptyFollow (followProd pg cf A p st) := by
  unfold followProd
  cases (p.getSymbolIndex A).head? with
  | none => exact h
  | some i => exact followProdAt_NEF pg cf hcf A p i st h

theorem computeFollow_NEF :
    ∀ (fuel : Nat) (pg : PG) (path : List String) (A : String)
      (st : FFState), NoEmptyFollow st →
      NoEmptyFollow (computeFollow fuel pg path A st)
  | 0, _, _, _, _, h => h
  | fuel + 1, pg, path, A, st, h => by
    unfold computeFollow
    by_cases h1 : A ∈ st.resultAvailable
    · rw [if_pos h1]; exact h
    · rw [if_neg h1]
      simp only []
      by_cases h2 : A ∈ path
      · rw [if_pos h2]; exact h
      · rw [if_neg h2]
        refine foldl_inv _ NoEmptyFollow (rhsProds pg A) _ h ?_
        intro s p _ hs
        exact followProd_NEF pg _
          (fun s2 B => computeFollow_NEF fuel pg (path ++ [A]) B s2)
          A p s hs

theorem followRound_NEF (pg : PG) (st : FFState) (h : NoEmptyFollow st) :
    NoEmptyFollow (followRound pg st) := by
  unfold followRound
  refine foldl_inv _ NoEmptyFollow pg.nonTerminalSet _ h ?_
  intro s A _ hs
  exact computeFollow_NEF (ffFuel pg) pg [] A s hs

theorem followFixpoint_NEF :
    ∀ (n : Nat) (pg : PG) (st : FFState), NoEmptyFollow st →
      NoEmptyFollow (followFixpoint n pg st)
  | 0, _, _, h => h
  | n + 1, pg, st, h => by
    unfold followFixpoint
    by_cases hc : followCounts pg (followRound pg st) = followCounts pg st
    · rw [if_pos hc]
      exact followRound_NEF pg st h
    · rw [if_neg hc]
      exact followFixpoint_NEF n pg _ (followRound_NEF pg st h)

theorem seedFollow_NEF (pg : PG) (st : FFState) (h : NoEmptyFollow st) :
    NoEmptyFollow (seedFollow pg st) := by
  unfold seedFollow
  cases pg.rootSymbol with
  | none => exact h
  | some r =>
    intro B
    show "T_" ∉ Function.update st.follow r (insertU (st.follow r) "T_EOF") B
    by_cases hBr : B = r
    · subst hBr
      rw [Function.update_same]
      intro hmem
      rcases mem_insertU.mp hmem with h1 | h1
      · exact h B h1
      · exact absurd h1 (by decide)
    · rw [Function.update_noteq hBr]
      exact h B

theorem firstProdLoop_follow (pg : PG) (cf : FFState → String → FFState)
    (hcf : ∀ s B, (cf s B).follow = s.follow) (A : String) (p : Production) :
    ∀ (l : List String) (st : FFState),
      (firstProdLoop pg cf A p l st).follow = st.follow
  | [], st => rfl
  | s :: rest, st => by
    unfold firstProdLoop
    by_cases h1 : s ∈ pg.terminalSet
    · rw [if_pos h1]; rfl
    · rw [if_neg h1]
      simp only []
      by_cases h2 : "T_" ∈ (cf st s).ntFirst s
      · rw [if_pos h2, firstProdLoop_follow pg cf hcf A p rest
          (unionFirstSym A p ((cf st s).ntFirst s) (cf st s))]
        exact hcf st s
      · rw [if_neg h2]
        exact hcf st s

theorem computeFirst_follow :
    ∀ (fuel : Nat) (pg : PG) (path : List String) (A : String)
      (st : FFState), (computeFirst fuel pg path A st).follow = st.follow
  | 0, _, _, _, _ => rfl
  | fuel + 1, pg, path, A, st => by
    unfold computeFirst
    by_cases h1 : A ∈ st.resultAvailable
    · rw [if_pos h1]
    · rw [if_neg h1]
      simp only []
      by_cases h2 : A ∈ path
      · rw [if_pos h2]
      · rw [if_neg h2]
        refine foldl_inv _ (fun acc : FFState => acc.follow = st.follow)
          (lhsProds pg A) _ rfl ?_
        intro acc p _ hs
        rw [firstProdLoop_follow pg
          (fun s2 B => computeFirst fuel pg (path ++ [A]) B s2)
          (fun s2 B => computeFirst_follow fuel pg (path ++ [A]) B s2)
          A p p.rhs acc]
        exact hs

theorem firstRound_follow (pg : PG) (st : FFState) :
    (firstRound pg st).follow = st.follow := by
  unfold firstRound
  refine foldl_inv _ (fun acc : FFState => acc.follow = st.follow)
    pg.nonTerminalSet _ rfl ?_
  intro acc A _ hs
  rw [computeFirst_follow (ffFuel pg) pg [] A acc]
  exact hs

theorem firstFixpoint_follow :
    ∀ (n : Nat) (pg : PG) (st : FFState),
      (firstFixpoint n pg st).follow = st.follow
  | 0, _, _ => rfl
  | n + 1, pg, st => by
    unfold firstFixpoint
    by_cases hc : firstCounts pg (firstRound pg st) = firstCounts pg st
    · rw [if_pos hc]
      exact firstRound_follow pg st
    · rw [if_neg hc]
      rw [firstFixpoint_follow n pg _, firstRound_follow pg st]

/-- C6: no step of the FOLLOW computation ever inserts EMPTY into any
FOLLOW set.  Starting from any annotation state whose FOLLOW sets are
free of EMPTY (in the pipeline they start empty): every single call
of `compute_follow` — hence every intermediate state inside a round —
preserves the property; and the full stage F (FIRST fixpoint, seeding
`root.follow_set` with END, FOLLOW fixpoint) keeps EMPTY out of every
non-terminal's FOLLOW set after every number of rounds. -/
theorem C6_empty_never_in_follow (pg : PG) (st : FFState)
    (h : ∀ B, "T_" ∉ st.follow B) :
    (∀ fuel path A B, "T_" ∉ (computeFollow fuel pg path A st).follow B) ∧
    (∀ rounds B, "T_" ∉ (processFirstFollow rounds pg st).follow B) := by
  constructor
  · intro fuel path A B
    exact computeFollow_NEF fuel pg path A st h B
  · intro rounds B
    unfold processFirstFollow
    refine followFixpoint_NEF rounds pg _ (seedFollow_NEF pg _ ?_) B
    intro C
    rw [firstFixpoint_follow rounds pg st]
    exact h C

/-- C6 witness: at the concrete grammar `linesC4`, EMPTY is absent
from FOLLOW sets after the full stage F and after a single
`compute_follow` call. -/
theorem C6_empty_never_in_follow_witness :
    "T_" ∉ stC4.follow "A" ∧
    "T_" ∉ (computeFollow 4 pgC4 [] "S" initFF).follow "S" :=
  ⟨(C6_empty_never_in_follow pgC4 initFF
      (fun _ => List.not_mem_nil "T_")).2 10 "A",
   (C6_empty_never_in_follow pgC4 initFF
      (fun _ => List.not_mem_nil "T_")).1 4 [] "S" "S"⟩

theorem except_bind_ok {α β : Type} (x : α) (g : α → Except String β) :
    (Except.ok x >>= g) = g x := rfl

theorem foldlM_eq_foldl {α β : Type} (f : β → α → Except String β)
    (g : β → α → β) :
    ∀ (l : List α) (b : β), (∀ s a, a ∈ l → f s a = .ok (g s a)) →
      List.foldlM f b l = .ok (List.foldl g b l)
  | [], b, _ => by rw [List.foldlM_nil, List.foldl_nil]; rfl
  | a :: l, b, h => by
    rw [List.foldlM_cons, List.foldl_cons, h b a (List.mem_cons_self a l),
      except_bind_ok]
    exact foldlM_eq_foldl f g l (g b a)
      (fun s x hx => h s x (List.mem_cons_of_mem a hx))

theorem followProdAtA_agrees (pg : PG)
    (cfA : FFState → String → Except String FFState)
    (cf : FFState → String → FFState) (A : String) (p : Production)
    (i : Nat) (st : FFState)
    (hcf : ∀ s, cfA s p.lhs = .ok (cf s p.lhs)) :
    followProdAtA pg cfA A p i st = .ok (followProdAt pg cf A p i st) := by
  unfold followProdAtA followProdAt
  by_cases h1 : i = p.rhs.length - 1
  · rw [if_pos h1, if_pos h1, hcf st, except_bind_ok]
  · rw [if_neg h1, if_neg h1]
    simp only []
    by_cases h2 : "T_" ∈ computeSubstringFirst pg st p (i + 1)
    · rw [if_pos h2, if_pos h2, hcf st, except_bind_ok]
    · rw [if_neg h2, if_neg h2]

theorem followProdA_agrees (pg : PG)
    (cfA : FFState → String → Except String FFState)
    (cf : FFState → String → FFState) (A : String) (p : Production)
    (st : FFState) (hcf : ∀ s, cfA s p.lhs = .ok (cf s p.lhs))
    (hlen : (p.getSymbolIndex A).length = 1) :
    followProdA pg cfA A p st = .ok (followProd pg cf A p st) := by
  obtain ⟨i, hi⟩ := List.length_eq_one.mp hlen
  unfold followProdA followProd
  simp only []
  rw [hi]
  rw [if_pos (by rfl : ([i] : List Nat).length = 1)]
  show followProdAtA pg cfA A p i st = .ok (followProdAt pg cf A p i st)
  exact followProdAtA_agrees pg cfA cf A p i st hcf

/-- Whenever the occurrence assertion of `compute_follow` holds for
every non-terminal and production (as the validator's check 6 demands
of well-formed grammars), the faithful fallible FOLLOW recursion
returns exactly the assertion-stripped one. -/
theorem computeFollowA_agrees :
    ∀ (fuel : Nat) (pg : PG) (path : List String) (A : String)
      (st : FFState), FollowAssertHolds pg →
      (∀ p ∈ pg.productionSet, p.lhs ∈ pg.nonTerminalSet) →
      A ∈ pg.nonTerminalSet →
      computeFollowA fuel pg path A st = .ok (computeFollow fuel pg path A st)
  | 0, _, _, _, _, _, _, _ => rfl
  | fuel + 1, pg, path, A, st, hassert, hlhs, hA => by
    unfold computeFollowA computeFollow
    by_cases h1 : A ∈ st.resultAvailable
    · rw [if_pos h1, if_pos h1]
    · rw [if_neg h1, if_neg h1]
      simp only []
      by_cases h2 : A ∈ path
      · rw [if_pos h2, if_pos h2]
      · rw [if_neg h2, if_neg h2]
        refine foldlM_eq_foldl _ _ (rhsProds pg A) _ ?_
        intro s p hp
        refine followProdA_agrees pg _ _ A p s ?_ (hassert A hA p hp)
        intro s2
        exact computeFollowA_agrees fuel pg (path ++ [A]) p.lhs s2 hassert
          hlhs (hlhs p (mem_rhsProds.mp hp).1)

theorem followRoundA_agrees (pg : PG) (st : FFState)
    (hassert : FollowAssertHolds pg)
    (hlhs : ∀ p ∈ pg.productionSet, p.lhs ∈ pg.nonTerminalSet) :
    followRoundA pg st = .ok (followRound pg st) := by
  unfold followRoundA followRound
  refine foldlM_eq_foldl _ _ pg.nonTerminalSet _ ?_
  intro s A hA
  exact computeFollowA_agrees (ffFuel pg) pg [] A s hassert hlhs hA

theorem followFixpointA_agrees :
    ∀ (n : Nat) (pg : PG) (st : FFState), FollowAssertHolds pg →
      (∀ p ∈ pg.productionSet, p.lhs ∈ pg.nonTerminalSet) →
      followFixpointA n pg st = .ok (followFixpoint n pg st)
  | 0, _, _, _, _ => rfl
  | n + 1, pg, st, hassert, hlhs => by
    unfold followFixpointA followFixpoint
    rw [followRoundA_agrees pg st hassert hlhs, except_bind_ok]
    by_cases hc : followCounts pg (followRound pg st) = followCounts pg st
    · rw [if_pos hc, if_pos hc]
    · rw [if_neg hc, if_neg hc]
      exact followFixpointA_agrees n pg _ hassert hlhs

theorem processFirstFollowA_agrees (rounds : Nat) (pg : PG) (st : FFState)
    (hassert : FollowAssertHolds pg)
    (hlhs : ∀ p ∈ pg.productionSet, p.lhs ∈ pg.nonTerminalSet) :
    processFirstFollowA rounds pg st =
      .ok (processFirstFollow rounds pg st) := by
  unfold processFirstFollowA processFirstFollow
  exact followFixpointA_agrees rounds pg _ hassert hlhs

theorem foldlM_exists_error {α β : Type} (f : β → α → Except String β) :
    ∀ (l : List α) (b : β) (p : α), p ∈ l →
      (∀ s, ∃ m, f s p = .error m) →
      ∃ m, List.foldlM f b l = .error m
  | [], _, p, hp, _ => absurd hp (List.not_mem_nil p)
  | a :: l, b, p, hp, herr => by
    rw [List.foldlM_cons]
    cases hf : f b a with
    | error e => exact ⟨e, rfl⟩
    | ok b1 =>
      rcases List.mem_cons.mp hp with rfl | hp1
      · obtain ⟨m, hm⟩ := herr b
        rw [hm] at hf
        exact (Except.noConfusion hf)
      · rw [except_bind_ok]
        exact foldlM_exists_error f l b1 p hp1 herr

/-- C4 counterexample: the claim asserts that the FOLLOW computation
handles a production in which `A` occurs at several RHS positions by
iterating all of them.  At the loaded grammar `linesC4`, `A` occurs at
positions 0 and 2 of `S → A T_X A T_Y`, and the FOLLOW computation
does not handle that production at all: the source's assertion
`len(index_list) == 1` (syntax.py:392) fails, so `compute_follow`
raises `AssertionError` — both the single call for `A` and the whole
stage F abort with that error and no FOLLOW fixpoint is reached. -/
theorem C4_counterexample :
    isOkPG (loadGrammarE linesC4) = true ∧
    pgC4.rootSymbol = some "R" ∧
    pC4 ∈ rhsProds pgC4 "A" ∧
    pC4.getSymbolIndex "A" = [0, 2] ∧
    ¬ FollowAssertHolds pgC4 ∧
    errOfFF (computeFollowA (ffFuel pgC4) pgC4 [] "A" initFF) =
      some followAssertMsg ∧
    errOfFF (processFirstFollowA 10 pgC4 initFF) = some followAssertMsg :=
  ⟨by decide, by decide, by decide, by decide, by decide, by decide,
   by decide⟩

/-- C4 amended: when a non-terminal `A` occurs at more than one RHS
position of a production in its `rhs_set`, the FOLLOW computation does
not iterate the occurrence positions: the assertion
`len(index_list) == 1` is violated, and any `compute_follow` call for
`A` that passes the memoisation and path guards aborts with an error
instead of processing the production (on grammars satisfying the
assertion everywhere, `computeFollowA_agrees` shows the computation
coincides with the assertion-stripped recursion). -/
theorem C4_amended_assert_aborts (pg : PG) (A : String) (p : Production)
    (hA : A ∈ pg.nonTerminalSet) (hp : p ∈ rhsProds pg A)
    (hlen : ¬ (p.getSymbolIndex A).length = 1) :
    ¬ FollowAssertHolds pg ∧
    ∀ (fuel : Nat) (path : List String) (st : FFState),
      A ∉ st.resultAvailable → A ∉ path →
      ∃ msg, computeFollowA (fuel + 1) pg path A st = .error msg := by
  constructor
  · intro hassert
    exact hlen (hassert A hA p hp)
  · intro fuel path st h1 h2
    unfold computeFollowA
    rw [if_neg h1]
    simp only []
    rw [if_neg h2]
    refine foldlM_exists_error _ (rhsProds pg A) _ p hp ?_
    intro s
    refine ⟨followAssertMsg, ?_⟩
    unfold followProdA
    simp only []
    rw [if_neg hlen]

/-- C4 amended witness: at `linesC4`, the assertion fails for
`S → A T_X A T_Y` and the `compute_follow` call for `A` aborts with an
error. -/
theorem C4_amended_assert_aborts_witness :
    ¬ FollowAssertHolds pgC4 ∧
    ∃ msg, computeFollowA 4 pgC4 [] "A" initFF = .error msg :=
  ⟨(C4_amended_assert_aborts pgC4 "A" pC4 (by decide) (by decide)
      (by decide)).1,
   (C4_amended_assert_aborts pgC4 "A" pC4 (by decide) (by decide)
      (by decide)).2 3 [] initFF (by decide) (by decide)⟩

theorem tableFind_none {t : List ((String × String) × Production)}
    {k : String × String} (h : tableFind t k = none) :
    k ∉ t.map Prod.fst := by
  induction t with
  | nil => simp
  | cons e rest ih =>
    unfold tableFind at h
    by_cases he : e.1 = k
    · rw [if_pos he] at h
      cases h
    · rw [if_neg he] at h
      simp only [List.map_cons, List.mem_cons]
      rintro (h1 | h1)
      · exact he h1.symm
      · exact ih h h1

theorem tableFind_mem :
    ∀ {t : List ((String × String) × Production)} {k : String × String}
      {p : Production}, tableFind t k = some p → (k, p) ∈ t := by
  intro t
  induction t with
  | nil => intro k p h; cases h
  | cons e rest ih =>
    intro k p h
    unfold tableFind at h
    by_cases he : e.1 = k
    · rw [if_pos he] at h
      cases h
      rw [List.mem_cons]
      left
      rw [← he]
    · rw [if_neg he] at h
      exact List.mem_cons_of_mem e (ih h)

theorem foldlM_except_inv {α β : Type} (f : β → α → Except String β)
    (Q : β → Prop) :
    ∀ (l : List α) (b b' : β),
      (∀ s a, a ∈ l → Q s → ∀ s', f s a = .ok s' → Q s') →
      List.foldlM f b l = .ok b' → Q b → Q b'
  | [], b, b', _, h, hb => by
    rw [List.foldlM_nil] at h
    cases h
    exact hb
  | a :: l, b, b', hstep, h, hb => by
    rw [List.foldlM_cons] at h
    cases hf : f b a with
    | error e => rw [hf] at h; exact (Except.noConfusion h)
    | ok b1 =>
      rw [hf] at h
      exact foldlM_except_inv f Q l b1 b'
        (fun s x hx hs => hstep s x (List.mem_cons_of_mem a hx) hs)
        h (hstep b a (List.mem_cons_self a l) hb b1 hf)

/-- The invariant carried through the table builder: every entry
already placed satisfies the FIRST/FOLLOW disjunction, and no key is
present twice. -/
def TableInv (st : FFState) (t : List ((String × String) × Production)) :
    Prop :=
  (∀ e ∈ t, e.1.1 = e.2.lhs ∧
    ((e.1.2 ∈ st.prodFirst e.2 ∧ ¬ e.1.2 = "T_") ∨
     ("T_" ∈ st.prodFirst e.2 ∧ e.1.2 ∈ st.follow e.1.1))) ∧
  (t.map Prod.fst).Nodup

theorem tableInsert_inv {st : FFState}
    {t t' : List ((String × String) × Production)} {A x : String}
    {p : Production} (hA : A = p.lhs)
    (hgood : (x ∈ st.prodFirst p ∧ ¬ x = "T_") ∨
      ("T_" ∈ st.prodFirst p ∧ x ∈ st.follow A))
    (h : tableInsert t (A, x) p = .ok t') (hinv : TableInv st t) :
    TableInv st t' := by
  unfold tableInsert at h
  cases hf : tableFind t (A, x) with
  | some q => rw [hf] at h; cases h
  | none =>
    rw [hf] at h
    cases h
    constructor
    · intro e he
      rcases List.mem_cons.mp he with rfl | he1
      · exact ⟨hA, hgood⟩
      · exact hinv.1 e he1
    · rw [List.map_cons]
      exact List.nodup_cons.mpr ⟨tableFind_none hf, hinv.2⟩

theorem isOkT_get {e : Except String (List ((String × String) × Production))}
    (h : isOkT e = true) :
    e = .ok (match e with | .ok t => t | .error _ => []) := by
  cases e with
  | ok t => rfl
  | error msg => simp [isOkT] at h

/-- C5: every entry `(A, x) → p` the builder places satisfies
`A = p.lhs` and either `x ∈ p.first_set \ {EMPTY}` or
(EMPTY ∈ `p.first_set` and `x ∈ A.follow_set`); and on success no
cell was ever assigned twice (the keys are pairwise distinct — a
duplicate assignment makes the builder raise instead of
overwriting, as `tableInsert` errors whenever the key is present). -/
theorem C5_table_entries (pg : PG) (st : FFState)
    (t : List ((String × String) × Production))
    (h : generateParsingTable pg st = .ok t) :
    (∀ A x p, tableFind t (A, x) = some p →
      p.lhs = A ∧ ((x ∈ st.prodFirst p ∧ ¬ x = "T_") ∨
        ("T_" ∈ st.prodFirst p ∧ x ∈ st.follow A))) ∧
    (t.map Prod.fst).Nodup := by
  have hinv : TableInv st t := by
    refine foldlM_except_inv _ (TableInv st) pg.productionSet [] t
      ?_ h ⟨by simp, by simp⟩
    intro s p _ hs s' hstep
    cases h1 : (st.prodFirst p).foldlM
        (fun acc x =>
          if x = "T_" then .ok acc else tableInsert acc (p.lhs, x) p) s with
    | error e =>
      rw [h1] at hstep
      exact (Except.noConfusion hstep)
    | ok t1 =>
      rw [h1] at hstep
      rw [except_bind_ok] at hstep
      have ht1 : TableInv st t1 := by
        refine foldlM_except_inv _ (TableInv st) (st.prodFirst p) s t1
          ?_ h1 hs
        intro s2 x hx hs2 s2' hx2
        by_cases hTe : x = "T_"
        · rw [if_pos hTe] at hx2
          cases hx2
          exact hs2
        · rw [if_neg hTe] at hx2
          exact tableInsert_inv rfl (Or.inl ⟨hx, hTe⟩) hx2 hs2
      by_cases hT : "T_" ∈ st.prodFirst p
      · rw [if_pos hT] at hstep
        refine foldlM_except_inv _ (TableInv st) (st.follow p.lhs) t1 s'
          ?_ hstep ht1
        intro s2 y hy hs2 s2' hy2
        exact tableInsert_inv rfl (Or.inr ⟨hT, hy⟩) hy2 hs2
      · rw [if_neg hT] at hstep
        cases hstep
        exact ht1
  refine ⟨?_, hinv.2⟩
  intro A x p hfind
  have he := hinv.1 ((A, x), p) (tableFind_mem hfind)
  exact ⟨he.1.symm, he.2⟩

/-- C5 witness: the table generated for `linesC9` has pairwise
distinct keys, and its entry at `(S, T_A)` satisfies the
FIRST/FOLLOW disjunction. -/
theorem C5_table_entries_witness :
    (tC9.map Prod.fst).Nodup ∧
    ((⟨"S", ["T_A"]⟩ : Production).lhs = "S" ∧
      (("T_A" ∈ stC9.prodFirst ⟨"S", ["T_A"]⟩ ∧ ¬ "T_A" = "T_") ∨
       ("T_" ∈ stC9.prodFirst ⟨"S", ["T_A"]⟩ ∧ "T_A" ∈ stC9.follow "S"))) :=
  ⟨(C5_table_entries pgC9 stC9 tC9 (isOkT_get (by decide))).2,
   (C5_table_entries pgC9 stC9 tC9 (isOkT_get (by decide))).1
     "S" "T_A" ⟨"S", ["T_A"]⟩ (by decide)⟩

/-- C7: resolution of the root symbol.  With `cands` the
non-terminals having an empty `rhs_set`: an empty `cands` fails with
the no-root error; a singleton `cands = [c]` succeeds and makes `c`
the root; two or more candidates fail with the multiple-roots error,
and the reported candidate list contains exactly the non-terminals
with an empty `rhs_set`. -/
theorem C7_root_resolution (pg : PG) :
    (pg.nonTerminalSet.filter (fun A => rhsProds pg A = []) = [] →
      processRootSymbol pg = .notFound) ∧
    (∀ c, pg.nonTerminalSet.filter (fun A => rhsProds pg A = []) = [c] →
      processRootSymbol pg = .ok { pg with rootSymbol := some c }) ∧
    (∀ c d l,
      pg.nonTerminalSet.filter (fun A => rhsProds pg A = []) = c :: d :: l →
      processRootSymbol pg = .multiple (c :: d :: l) ∧
      ∀ x, x ∈ c :: d :: l ↔ x ∈ pg.nonTerminalSet ∧ rhsProds pg x = []) := by
  refine ⟨?_, ?_, ?_⟩
  · intro h
    unfold processRootSymbol
    rw [h]
    rfl
  · intro c h
    unfold processRootSymbol
    rw [h]
    rfl
  · intro c d l h
    constructor
    · unfold processRootSymbol
      rw [h]
      rw [if_pos (by simp)]
    · intro x
      rw [← h]
      simp [List.mem_filter]

/-- C7 witness: the grammar `linesC7` has the two root candidates
`R1` and `R2`; resolution fails reporting both. -/
theorem C7_root_resolution_witness :
    processRootSymbol pgC7 = .multiple ["R1", "R2"] ∧
    ∀ x, x ∈ ["R1", "R2"] ↔ x ∈ pgC7.nonTerminalSet ∧ rhsProds pgC7 x = [] :=
  (C7_root_resolution pgC7).2.2 "R1" "R2" [] (by decide)

theorem demoRun_ok_stack_empty :
    ∀ (fuel : Nat) (pg : PG) (t : List ((String × String) × Production))
      (input : List String) (st st' : DemoState),
      demoRun pg t input fuel st = some (.ok st') → st'.stack = []
  | 0, _, _, _, _, _, h => by cases h
  | fuel + 1, pg, t, input, st, st', h => by
    unfold demoRun at h
    match hst : st.stack with
    | [] =>
      rw [hst] at h
      cases h
      exact hst
    | top :: rest =>
      rw [hst] at h
      simp only [] at h
      by_cases h1 : top ∈ pg.terminalSet
      · rw [if_pos h1] at h
        by_cases h2 : top = "T_"
        · rw [if_pos h2] at h
          exact demoRun_ok_stack_empty fuel pg t input _ st' h
        · rw [if_neg h2] at h
          cases hin : input.get? st.index with
          | none => rw [hin] at h; simp at h
          | some tok =>
            rw [hin] at h
            simp only [] at h
            by_cases h3 : top = tok
            · rw [if_pos h3] at h
              exact demoRun_ok_stack_empty fuel pg t input _ st' h
            · rw [if_neg h3] at h
              simp at h
      · rw [if_neg h1] at h
        cases hin : input.get? st.index with
        | none => rw [hin] at h; simp at h
        | some tok =>
          rw [hin] at h
          simp only [] at h
          cases hf : tableFind t (top, tok) with
          | none => rw [hf] at h; simp at h
          | some p =>
            rw [hf] at h
            exact demoRun_ok_stack_empty fuel pg t input _ st' h

/-- C9 counterexample: the claim asserts that whenever the demo
driver stops without a fatal error, the stack is empty and
`input[index] = END`.  Driving the table generated for `linesC9`
(`S → T_A`) on the stream `T_A T_B T_EOF`, the loop stops normally
with an empty stack at `index = 1`, where `input[1] = T_B ≠ T_EOF`:
the loop's only exit condition is the empty stack and the current
input symbol is never compared with END. -/
theorem C9_counterexample :
    isOkPG (loadGrammarE linesC9) = true ∧
    pgC9.rootSymbol = some "S" ∧
    isOkT (generateParsingTable pgC9 stC9) = true ∧
    demoRun pgC9 tC9 inputC9 10 ⟨["S"], 0⟩ = some (.ok ⟨[], 1⟩) ∧
    inputC9.get? 1 = some "T_B" ∧
    ¬ ((some "T_B" : Option String) = some "T_EOF") :=
  ⟨by decide, by decide, by decide, by decide, by decide, by decide⟩

/-- C9 amended: the demo driver's loop terminates normally exactly
when the stack becomes empty; for every table, token stream and
starting state, a run that stops without a fatal error leaves an
empty stack (the current input symbol is not examined at exit and
need not be END). -/
theorem C9_amended_stop_means_empty_stack (pg : PG)
    (t : List ((String × String) × Production)) (input : List String)
    (fuel : Nat) (st st' : DemoState)
    (h : demoRun pg t input fuel st = some (.ok st')) : st'.stack = [] :=
  demoRun_ok_stack_empty fuel pg t input st st' h

/-- C9 amended witness: the concrete run of the counterexample
stream stops with an empty stack. -/
theorem C9_amended_stop_means_empty_stack_witness :
    (⟨([] : List String), 1⟩ : DemoState).stack = [] :=
  C9_amended_stop_means_empty_stack pgC9 tC9 inputC9 10 ⟨["S"], 0⟩
    ⟨[], 1⟩ (by decide)

/-- C10: the loader's missing-body check fires only when a later
colon line opens a new LHS.  If the production pass succeeds on a
line list (ending in a state whose current LHS has a body) and one
more declaration line `d` for a declared name follows at end of
file, the extended pass still succeeds — the "does not have a body"
error is never raised for the final declaration — and adds no
production, so a name not previously used as an LHS is left with an
empty `lhs_productions` set. -/
theorem C10_trailing_decl_accepted (lines : List String) (d : String)
    (pg0 : PG) (st1 : ProdState)
    (h : List.foldlM prodStep ⟨pg0, none, true⟩ lines = .ok st1)
    (hbody : st1.hasBody = true)
    (hdecl : lineIsDecl d = true)
    (hname : declName d ∈ st1.pg.nonTerminalSet) :
    List.foldlM prodStep ⟨pg0, none, true⟩ (lines ++ [d]) =
      .ok ⟨st1.pg, some (declName d), false⟩ ∧
    ((∀ p ∈ st1.pg.productionSet, ¬ p.lhs = declName d) →
      lhsProds st1.pg (declName d) = []) := by
  constructor
  · rw [List.foldlM_append, h, except_bind_ok, List.foldlM_cons]
    have hstep : prodStep st1 d = .ok ⟨st1.pg, some (declName d), false⟩ := by
      unfold prodStep
      rw [if_pos hdecl, hbody]
      rw [if_neg (by simp), if_pos hname]
    rw [hstep, except_bind_ok, List.foldlM_nil]
    rfl
  · intro hnone
    unfold lhsProds
    rw [List.filter_eq_nil_iff]
    intro p hp
    simp only [decide_eq_true_eq]
    exact hnone p hp

theorem isOkPS_getPS {e : Except String ProdState} (h : isOkPS e = true) :
    e = .ok (getPS e) := by
  cases e with
  | ok st => rfl
  | error msg => simp [isOkPS] at h

/-- C10 witness: after `S:` and its body `T_A`, the trailing
declaration `X:` is accepted with no body following it, and `X` ends
with an empty `lhs_productions` set. -/
theorem C10_trailing_decl_accepted_witness :
    List.foldlM prodStep ⟨pgC10sym, none, true⟩ (["S:", "T_A"] ++ ["X:"]) =
      .ok ⟨psC10.pg, some (declName "X:"), false⟩ ∧
    lhsProds psC10.pg (declName "X:") = [] := by
  have hc := C10_trailing_decl_accepted ["S:", "T_A"] "X:" pgC10sym psC10
    (isOkPS_getPS (by decide)) (by decide) (by decide) (by decide)
  exact ⟨hc.1, hc.2 (by decide)⟩
